import Mathlib

/-!
Shallow embedding of the blockchain engine in src/final.ts
(radotzki/how-build-your-own-blockchain).

The pure data model and the operations reachable from the claims are
translated directly from the TypeScript source.  External collaborators are
abstracted as function parameters:

* the RSA signature check of verifySignature (NodeRSA) is a parameter
  vs : VerifySig;
* the canonical JSON encoding JSON.stringify(toJson()) of a transaction,
  which covers exactly its inputs and outputs, is a parameter enc : EncodeTx;
* Wallet.sign is a parameter sign : SignFn;
* the SHA-256 of a whole block (Block.sha256) is a parameter h : HashFn;
* the unbounded mining search loop (Block.mine) is abstracted by its result,
  a parameter mineFn : MineFn giving the (nonce, hash) the loop found;
* the file-system store (fs.readFileSync / writeFileSync) is modelled by
  Option-valued stored contents, none meaning the ENOENT case.

Amounts and block numbers are JavaScript numbers used only through integer
arithmetic in the source, so they are embedded as Int.
-/

/-- Source: class TransactionOutput { recipientAddress: string; amount: number }. -/
structure TransactionOutput where
  recipientAddress : String
  amount : Int
  deriving DecidableEq, Repr

/-- Source: class TransactionInput stores a pair (transaction, outputIdx) and
exposes the getter parentOutput = transaction.outputs[outputIdx].  The
embedding stores the resolved parent output directly (the data-model
invariant makes outputIdx a valid index into the referenced transaction's
outputs, and every reachable construction in the source satisfies it, since
inputs are built from a findIndex hit). -/
structure TransactionInput where
  parentOutput : TransactionOutput
  deriving DecidableEq, Repr

/-- Source: class Transaction { wallet: Wallet; inputs; outputs; signature }.
Only wallet.address is ever read from the wallet, so the embedding keeps the
address; walletAddress = none models the null wallet of a coinbase
(GenesisTransaction).  The signature bytes are kept as an abstract string. -/
structure Transaction where
  walletAddress : Option String
  inputs : List TransactionInput
  outputs : List TransactionOutput
  signature : String
  deriving DecidableEq, Repr

/-- Source: class GenesisTransaction extends Transaction: null wallet, no
inputs, a single output, and the literal signature 'genesis'. -/
def GenesisTransaction (recipientAddress : String) (amount : Int) : Transaction :=
  { walletAddress := none
    inputs := []
    outputs := [{ recipientAddress := recipientAddress, amount := amount }]
    signature := "genesis" }

/-- verifySignature(walletAddress, message, signature): the NodeRSA-backed
signature check, abstracted (address, message, signature to Bool). -/
abbrev VerifySig := String → String → String → Bool

/-- JSON.stringify(transaction.toJson()): the canonical encoding of a
transaction, a function of exactly its inputs and outputs (toJson omits the
wallet and the signature), abstracted. -/
abbrev EncodeTx := List TransactionInput → List TransactionOutput → String

/-- Wallet.sign(message): the RSA signing primitive, abstracted. -/
abbrev SignFn := String → String

/-- Source, Transaction.verify: the inputs total
reduce((sum, txin) => txin.parentOutput.amount + sum, 0). -/
def Transaction.totalIn (t : Transaction) : Int :=
  t.inputs.foldl (fun sum txin => txin.parentOutput.amount + sum) 0

/-- Source, Transaction.verify: the outputs total
reduce((sum, txout) => txout.amount + sum, 0). -/
def Transaction.totalOut (t : Transaction) : Int :=
  t.outputs.foldl (fun sum txout => txout.amount + sum) 0

/-- Source, Transaction.verify: inputs.every(txin =>
txin.parentOutput.recipientAddress === inputs[0].parentOutput.recipientAddress).
In JavaScript inputs[0] is only evaluated inside the callback, so on an empty
input list the quantifier is vacuously true; the inner match mirrors that. -/
def Transaction.sameWallet (t : Transaction) : Bool :=
  t.inputs.all fun txin =>
    match t.inputs[0]? with
    | some first => txin.parentOutput.recipientAddress == first.parentOutput.recipientAddress
    | none => true

/-- Source: static Transaction.verify.  Returns sameWallet && correctSignature
&& funds.  transaction.wallet.address is read through getD: every claim below
restricts to transactions that do have a wallet, where the two agree (on a
null wallet the source would throw a TypeError instead). -/
def Transaction.verify (vs : VerifySig) (enc : EncodeTx) (t : Transaction) : Bool :=
  let sameWallet := t.sameWallet
  let correctSignature := vs (t.walletAddress.getD ("")) (enc t.inputs t.outputs) t.signature
  let funds := decide (t.totalOut ≤ t.totalIn)
  sameWallet && correctSignature && funds

/-- Source: Block.DIFFICULTY = 4. -/
def Block.DIFFICULTY : Nat := 4

/-- Source: Block.TARGET = 2 ** (256 - Block.DIFFICULTY).  The double value
2 ** 252 is a power of two, hence exactly representable, so the intended
numeric target is exactly this natural number. -/
def Block.TARGET : Nat := 2 ^ (256 - Block.DIFFICULTY)

/-- Source: Block.MINING_REWARD = 25 (the amount of every block's coinbase). -/
def Block.MINING_REWARD : Int := 25

/-- isPoWValid compares against this.blockDifficulty.toString(), where
blockDifficulty is always the class constant Block.TARGET.  ECMAScript
Number.prototype.toString returns the shortest decimal that rounds back to
the double, which for 2 ^ 252 is "7.237005577332262e+75"; BigNumber parses
that string exactly as the integer below.  The lemmas TARGET_DECIMAL_rounds,
TARGET_DECIMAL_shortest_lo, TARGET_DECIMAL_shortest_hi and
TARGET_DECIMAL_closest justify this constant against the toString algorithm:
the double rounding interval of 2 ^ 252 is [2^252 - 2^198, 2^252 + 2^199]
(ties round to the even significand 2 ^ 252), no 15-significant-digit decimal
lies in it, and among 16-digit decimals this one is strictly closest. -/
def Block.TARGET_DECIMAL : Nat := 7237005577332262 * 10 ^ 60

/-- The whitespace class of the regular expressions in bignumber.js's
parseNumeric (JavaScript backslash-s), restricted to the ASCII range the
system's digest strings live in. -/
def isJsWhitespace (c : Char) : Bool :=
  c == ' ' || c == '\t' || c == '\n' || c == '\r' ||
    c == Char.ofNat 11 || c == Char.ofNat 12

/-- parseNumeric's whitespaceOrPlus replacement on a "0x…" string: only the
trailing-whitespace alternative can fire, since the string starts with the
character 0 (the leading-whitespace and leading-plus alternatives need the
whitespace or plus at the very front). -/
def dropTrailingWhitespace (cs : List Char) : List Char :=
  (cs.reverse.dropWhile isJsWhitespace).reverse

/-- A word character of the regular expressions (backslash-w):
alphanumeric or underscore. -/
def isWordChar (c : Char) : Bool :=
  c.isAlphanum || c == '_'

/-- One character of bignumber.js's default base-16 alphabet
"0123456789abcdef" (the alphabet is lower case; upper case is handled by the
whole-string case change in evalBase16Cased). -/
def hexLowerVal (c : Char) : Option Nat :=
  if '0' ≤ c ∧ c ≤ '9' then some (c.toNat - '0'.toNat)
  else if 'a' ≤ c ∧ c ≤ 'f' then some (c.toNat - 'a'.toNat + 10)
  else none

/-- Horner evaluation of a base-16 digit string over the lower-case
alphabet. -/
def hexDigitsHorner : List Char → Nat → Option Nat
  | [], acc => some acc
  | c :: cs, acc =>
    match hexLowerVal c with
    | some d => hexDigitsHorner cs (16 * acc + d)
    | none => none

/-- The constructor's dot rule: at most one dot, and not as the first
character (the loop only accepts a dot at index i when i > 0 and none was
seen before).  Returns the digits before and after the dot. -/
def splitOnDot (cs : List Char) : Option (List Char × List Char) :=
  let before := cs.takeWhile (fun c => c ≠ '.')
  match cs.dropWhile (fun c => c ≠ '.') with
  | [] => some (cs, [])
  | _ :: after =>
    if before.isEmpty then none
    else if after.any (fun c => c == '.') then none
    else some (before, after)

/-- The hex fraction digits D (of count k, value D / 16 ^ k < 1) rounded to
DECIMAL_PLACES = 20 decimal places with the default ROUNDING_MODE 4
(ROUND_HALF_UP), as bignumber.js does for base conversions; returned scaled
by 10 ^ 20: floor(D / 16 ^ k * 10 ^ 20 + 1 / 2). -/
def roundFrac20 (d k : Nat) : Nat :=
  (2 * d * 10 ^ 20 + 16 ^ k) / (2 * 16 ^ k)

/-- The constructor's base-16 validation loop and conversion on the string
that remains after the 0x prefix is stripped: digits with at most one
non-leading dot.  The value intPart + frac / 16 ^ k is returned as the pair
(intPart, fraction scaled to 20 decimal places). -/
def evalBase16 (cs : List Char) : Option (Nat × Nat) :=
  match splitOnDot cs with
  | none => none
  | some (intDigits, fracDigits) =>
    match hexDigitsHorner intDigits 0, hexDigitsHorner fracDigits 0 with
    | some iv, some fv => some (iv, roundFrac20 fv fracDigits.length)
    | _, _ => none

/-- The constructor's whole-string case change: a string that fails the
(lower-case) alphabet is retried lower-cased provided it contains no
lower-case letter (str == str.toUpperCase()); mixed-case input stays
invalid.  (The symmetric upper-casing retry can never validate against the
default lower-case alphabet.) -/
def evalBase16Cased (cs : List Char) : Option (Nat × Nat) :=
  match evalBase16 cs with
  | some v => some v
  | none =>
    if cs.any (fun c => c.isLower) then none
    else evalBase16 (cs.map Char.toLower)

/-- new BigNumber(pow) on the "0x"-prefixed string, following bignumber.js:
parseNumeric strips surrounding whitespace (only trailing is reachable
here), the base prefix "0x" is recognised when followed by a word character
and then only word characters and dots (the basePrefix lookahead), and the
remainder is converted as a base-16 numeral — so fractional hex such as
"0x1.8" (= 1.5) and padded input such as "0x5 " are accepted.  Any failure
(no digits, a bad character, mixed letter case, a misplaced or repeated
dot) makes the library produce NaN or throw, both of which isPoWValid turns
into false; modelled as none.  The value is the exact pair
(integer part, 20-decimal-place fraction scaled by 10 ^ 20). -/
def parseBigNumber (s : String) : Option (Nat × Nat) :=
  match dropTrailingWhitespace s.toList with
  | '0' :: 'x' :: rest =>
    match rest with
    | [] => none
    | c :: _ =>
      if isWordChar c && rest.all (fun c => isWordChar c || c == '.') then
        evalBase16Cased rest
      else none
  | _ => none

/-- pow.startsWith("0x") of the source, written over the character list so
that concrete instances evaluate inside the kernel. -/
def startsWith0x (s : String) : Bool :=
  match s.toList with
  | '0' :: 'x' :: _ => true
  | _ => false

/-- Source: Block.isPoWValid(pow).  Prepends "0x" when the string does not
already start with it, then compares new BigNumber(pow) with
blockDifficulty.toString() via lessThanOrEqualTo; any parse failure (NaN or
a thrown error) yields false.  blockDifficulty is Block.TARGET for every
block, and its toString is the decimal behind Block.TARGET_DECIMAL (see
there).  lessThanOrEqualTo compares the two finite decimals exactly; since
the parsed value is intPart + frac20 / 10 ^ 20 and the target an integer,
the comparison is embedded in the naturals scaled by 10 ^ 20. -/
def Block.isPoWValid (pow : String) : Bool :=
  let pow0x := if startsWith0x pow then pow else "0x" ++ pow
  match parseBigNumber pow0x with
  | some v => decide (v.1 * 10 ^ 20 + v.2 ≤ Block.TARGET_DECIMAL * 10 ^ 20)
  | none => false

/-- Source: class Block.  The TypeScript object stores the whole ancestor
Block; only ancestor.hash is ever read (toJson and chain validation), so the
embedding keeps that hash, with none for the null ancestor of a genesis
block.  blockDifficulty is the class constant Block.TARGET for every block
and is kept implicit in Block.isPoWValid. -/
structure Block where
  transactions : List Transaction
  ancestorHash : Option String
  minerAddress : String
  blockNumber : Int
  validTransaction : Bool
  nonce : Int
  hash : String
  deriving DecidableEq, Repr

/-- Block.sha256(): SHA-256 of JSON.stringify(block.toJson()), abstracted as
a function of the block. -/
abbrev HashFn := Block → String

/-- Block.mine(): the unbounded proof-of-work search, abstracted by the
(nonce, hash) pair it finds for the assembled contents (transactions with the
coinbase prepended, block number, ancestor hash). -/
abbrev MineFn := List Transaction → Int → Option String → Int × String

/-- Source: the Block constructor.  Prepends the coinbase
GenesisTransaction(minerAddress, Block.MINING_REWARD), numbers the block
after its ancestor (0 without one), verifies the caller-supplied transactions
(the coinbase itself is not verified), and mines only when they all verify; a
rejected block keeps placeholder nonce/hash (undefined in the source, never
used because rejected blocks are discarded). -/
def Block.make (vs : VerifySig) (enc : EncodeTx) (mineFn : MineFn)
    (transactions : List Transaction) (ancestor : Option Block)
    (minerAddress : String) : Block :=
  let txs := GenesisTransaction minerAddress Block.MINING_REWARD :: transactions
  let blockNumber : Int :=
    match ancestor with
    | some a => a.blockNumber + 1
    | none => 0
  let validTransaction := transactions.all (Transaction.verify vs enc)
  let ancestorHash := ancestor.map (fun a => a.hash)
  let mined := if validTransaction then mineFn txs blockNumber ancestorHash else (0, "")
  { transactions := txs
    ancestorHash := ancestorHash
    minerAddress := minerAddress
    blockNumber := blockNumber
    validTransaction := validTransaction
    nonce := mined.1
    hash := mined.2 }

/-- Source: class GenesisBlock extends Block { constructor(minerAddress)
{ super([], null, minerAddress) } }. -/
def GenesisBlock (vs : VerifySig) (enc : EncodeTx) (mineFn : MineFn)
    (minerAddress : String) : Block :=
  Block.make vs enc mineFn [] none minerAddress

/-- Source: the Blockchain state that the claims touch: the block list and
the transaction pool.  Node registry, node id and the storage path belong to
the excluded transport/persistence layer. -/
structure Blockchain where
  blocks : List Block
  transactionPool : List Transaction
  deriving DecidableEq, Repr

/-- Source: Blockchain.SATOSHI_NAKAMOTO = '123456', the genesis miner. -/
def Blockchain.SATOSHI_NAKAMOTO : String := "123456"

/-- Source: Blockchain.GENESIS_BLOCK = new GenesisBlock(SATOSHI_NAKAMOTO),
mined once at module load; its nonce/hash come from that startup mining run,
here determined by the abstract mineFn. -/
def Blockchain.GENESIS_BLOCK (vs : VerifySig) (enc : EncodeTx) (mineFn : MineFn) : Block :=
  GenesisBlock vs enc mineFn Blockchain.SATOSHI_NAKAMOTO

/-- Source: the loop body of static Blockchain.verify, from index 1 on:
previous is the block before current, i the expected block number.  The three
throw sites of the source are the three false branches; a null ancestor makes
the source throw a TypeError inside the try (caught, hence false), which the
none ≠ some comparison reproduces. -/
def Blockchain.verifyFrom (h : HashFn) : Block → List Block → Nat → Bool
  | _, [], _ => true
  | previous, current :: rest, i =>
    if current.blockNumber ≠ (i : Int) then false
    else if current.ancestorHash ≠ some (h previous) then false
    else if Block.isPoWValid (h current) = false then false
    else Blockchain.verifyFrom h current rest (i + 1)

/-- Source: static Blockchain.verify(blocks).  Empty chains are rejected, the
first block must be deep-equal to the genesis constant (structural equality
here), then the linkage loop runs; genesis stands for the startup constant
Blockchain.GENESIS_BLOCK. -/
def Blockchain.verify (h : HashFn) (genesis : Block) (blocks : List Block) : Bool :=
  match blocks with
  | [] => false
  | b0 :: rest => if b0 ≠ genesis then false else Blockchain.verifyFrom h b0 rest 1

/-- Source: initTransactionPool.  Reading the pool file throws on any
problem (including absence), caught into the empty pool; stored = none is the
absent/corrupt case. -/
def Blockchain.initTransactionPool (stored : Option (List Transaction)) : List Transaction :=
  match stored with
  | some pool => pool
  | none => []

/-- Source: Blockchain.load.  ENOENT (stored = none) initializes the chain
with the genesis constant; the finally block always runs this.verify(),
which throws "Invalid blockchain!" when static verify fails. -/
def Blockchain.load (h : HashFn) (genesis : Block) (stored : Option (List Block)) :
    Except String (List Block) :=
  let blocks :=
    match stored with
    | some bs => bs
    | none => [genesis]
  if Blockchain.verify h genesis blocks then Except.ok blocks
  else Except.error ("Invalid blockchain!")

/-- Source: addToTransactionPool (push, then persist; persistence abstracted). -/
def Blockchain.addToTransactionPool (s : Blockchain) (tx : Transaction) : Blockchain :=
  { s with transactionPool := s.transactionPool ++ [tx] }

/-- Source: clearTransactionPool. -/
def Blockchain.clearTransactionPool (s : Blockchain) : Blockchain :=
  { s with transactionPool := [] }

/-- Source: getLastBlock() = blocks[blocks.length - 1]; undefined on an empty
chain, modelled as none. -/
def Blockchain.getLastBlock (s : Blockchain) : Option Block :=
  s.blocks.getLast?

/-- Source: computeBalance(walletAddress).  Flattens all transactions of all
blocks, then subtracts every input resolving to the address and adds every
output addressed to it, in program order. -/
def Blockchain.computeBalance (s : Blockchain) (walletAddress : String) : Int :=
  let transactions := s.blocks.foldl (fun all curr => all ++ curr.transactions) []
  transactions.foldl
    (fun balance tx =>
      let afterInputs := tx.inputs.foldl
        (fun b txin =>
          if txin.parentOutput.recipientAddress == walletAddress then
            b - txin.parentOutput.amount
          else b)
        balance
      tx.outputs.foldl
        (fun b txout =>
          if txout.recipientAddress == walletAddress then b + txout.amount else b)
        afterInputs)
    0

/-- Source: the transaction-level body of submitTransaction's scan:
outputIdx = tx.outputs.findIndex(txout => txout.recipientAddress ==
senderWallet.address); if (outputIdx > -1) push new TransactionInput(tx,
outputIdx).  The pushed input resolves (in the embedding's representation)
to tx.outputs[outputIdx]; the getD default is unreachable since findIndex
returns an in-range index. -/
def collectInputStep (senderAddress : String) (acc : List TransactionInput)
    (tx : Transaction) : List TransactionInput :=
  match tx.outputs.findIdx? (fun txout => txout.recipientAddress == senderAddress) with
  | some outputIdx =>
    acc ++ [{ parentOutput := tx.outputs.getD outputIdx { recipientAddress := "", amount := 0 } }]
  | none => acc

/-- Source: submitTransaction(senderWallet, recipientAddress, value).  For
every transaction of every block, findIndex locates the first output paying
the sender's address and, when found, one input referencing it is pushed
(collectInputStep); then the two outputs (payment, change =
Math.abs(balance - value)) are built and the signed transaction is appended
to the pool.  Only senderWallet.address and senderWallet.sign are used, so
the wallet is passed as its address plus the abstract sign function. -/
def Blockchain.submitTransaction (enc : EncodeTx) (sign : SignFn) (s : Blockchain)
    (senderAddress : String) (recipientAddress : String) (value : Int) : Blockchain :=
  let txinputs := s.blocks.foldl
    (fun acc block => block.transactions.foldl (collectInputStep senderAddress) acc)
    []
  let senderBalance := s.computeBalance senderAddress
  let txOutputs : List TransactionOutput :=
    [{ recipientAddress := recipientAddress, amount := value },
     { recipientAddress := senderAddress, amount := |senderBalance - value| }]
  s.addToTransactionPool
    { walletAddress := some senderAddress
      inputs := txinputs
      outputs := txOutputs
      signature := sign (enc txinputs txOutputs) }

/-- Source: createBlock(minerAddress).  Builds the block from the pool atop
the current tip; a rejected block makes it throw 'Invalid transaction' with
no state change; otherwise the block is pushed, the pool cleared, the state
persisted and the block returned. -/
def Blockchain.createBlock (vs : VerifySig) (enc : EncodeTx) (mineFn : MineFn)
    (s : Blockchain) (minerAddress : String) : Blockchain × Except String Block :=
  let newBlock := Block.make vs enc mineFn s.transactionPool s.getLastBlock minerAddress
  if newBlock.validTransaction = false then (s, Except.error ("Invalid transaction"))
  else ({ s with blocks := s.blocks ++ [newBlock], transactionPool := [] }, Except.ok newBlock)

/-- Source: the candidate scan of Blockchain.consensus.  The fold carries
(maxLength, best candidate found); candidates no longer than the best so far
are skipped without validation, a valid longer candidate becomes the best.
The source tracks the best candidate's index and reads
blockchains[bestCandidateIndex] at the end, which is the candidate itself. -/
def Blockchain.bestCandidateAux (h : HashFn) (genesis : Block) :
    List (List Block) → Nat × Option (List Block) → Nat × Option (List Block)
  | [], acc => acc
  | candidate :: rest, acc =>
    if candidate.length ≤ acc.1 then Blockchain.bestCandidateAux h genesis rest acc
    else if Blockchain.verify h genesis candidate then
      Blockchain.bestCandidateAux h genesis rest (candidate.length, some candidate)
    else Blockchain.bestCandidateAux h genesis rest acc

/-- Source: Blockchain.consensus(blockchains).  After the scan, the candidate
is adopted iff one was found and (maxLength > blocks.length or the local
chain fails validation); adoption replaces the block list (and persists) and
the boolean result reports whether adoption happened. -/
def Blockchain.consensus (h : HashFn) (genesis : Block) (s : Blockchain)
    (blockchains : List (List Block)) : Blockchain × Bool :=
  let best := Blockchain.bestCandidateAux h genesis blockchains (0, none)
  match best.2 with
  | some candidate =>
    if decide (best.1 > s.blocks.length) || !(Blockchain.verify h genesis s.blocks) then
      ({ s with blocks := candidate }, true)
    else (s, false)
  | none => (s, false)

/-- The largest length of a valid candidate (0 when none is valid): the value
the scan's maxLength reaches. -/
def Blockchain.maxValidLength (h : HashFn) (genesis : Block)
    (blockchains : List (List Block)) : Nat :=
  blockchains.foldr
    (fun c m => if Blockchain.verify h genesis c then max c.length m else m) 0

/-- Default output, used only as the default of list indexing in statements. -/
def defaultOutput : TransactionOutput := { recipientAddress := "", amount := 0 }

/-- Default input for list indexing in statements. -/
def defaultInput : TransactionInput := { parentOutput := defaultOutput }

/-- Default block for list indexing in statements. -/
def defaultBlock : Block :=
  { transactions := []
    ancestorHash := none
    minerAddress := ""
    blockNumber := 0
    validTransaction := true
    nonce := 0
    hash := "" }

/-- A signature check that accepts everything: a concrete stand-in for the
abstract NodeRSA verifier in witnesses and counterexamples. -/
def vsAlwaysTrue : VerifySig := fun _ _ _ => true

/-- A signature check that rejects everything. -/
def vsAlwaysFalse : VerifySig := fun _ _ _ => false

/-- A concrete trivial canonical encoder for witnesses. -/
def encTrivial : EncodeTx := fun _ _ => ""

/-- A concrete trivial signer for witnesses. -/
def signTrivial : SignFn := fun _ => ""

/-- A concrete trivial mining result for witnesses. -/
def mineTrivial : MineFn := fun _ _ _ => (0, "")

/-- A concrete block hash function whose digests satisfy the PoW check. -/
def hashZero : HashFn := fun _ => "0"

/-- The 64-hex-digit digest whose numeric value is exactly 2 ^ 252, the
boundary value of the spec's proof-of-work target. -/
def powBoundaryHex : String :=
  "1000000000000000000000000000000000000000000000000000000000000000"

/-- The ownership check as claim C4 words it: every input's resolved output
carries the signer's claimed address.  Stated for comparison with the
source's sameWallet, which never consults the signer's address. -/
def Transaction.ownershipClaimed (t : Transaction) : Bool :=
  t.inputs.all fun txin => txin.parentOutput.recipientAddress == t.walletAddress.getD ("")

/-- Transaction verification as claim C4 words it: ownership against the
signer's address, authenticity, sufficiency. -/
def Transaction.verifyClaimed (vs : VerifySig) (enc : EncodeTx) (t : Transaction) : Bool :=
  Transaction.ownershipClaimed t &&
    vs (t.walletAddress.getD ("")) (enc t.inputs t.outputs) t.signature &&
    decide (t.totalOut ≤ t.totalIn)

/-- A transaction signed for address A whose single input resolves to an
output owned by B. -/
def txForeignInput : Transaction :=
  { walletAddress := some ("A")
    inputs := [{ parentOutput := { recipientAddress := "B", amount := 10 } }]
    outputs := [{ recipientAddress := "C", amount := 5 }]
    signature := "sig" }

/-- The per-address net contribution of one transaction: credited outputs
minus debited inputs. -/
def txNet (addr : String) (tx : Transaction) : Int :=
  ((tx.outputs.filter fun o => o.recipientAddress == addr).map
    TransactionOutput.amount).sum -
  ((tx.inputs.filter fun i => i.parentOutput.recipientAddress == addr).map
    fun i => i.parentOutput.amount).sum

/-- The inputs submitTransaction collects, as the amended claim describes
them: for each transaction on the chain, in chain order, the first output
addressed to the sender (and nothing else, however many outputs that
transaction pays the sender, and regardless of any earlier spending). -/
def firstOutputInputs (s : Blockchain) (senderAddress : String) : List TransactionInput :=
  (s.blocks.map Block.transactions).flatten.filterMap fun tx =>
    (tx.outputs.find? fun txout => txout.recipientAddress == senderAddress).map
      fun o => { parentOutput := o }

/-- A chain transaction paying the address "S" twice (as a self-payment
made through submitTransaction itself would: payment plus change). -/
def txDoubleToS : Transaction :=
  { walletAddress := none
    inputs := []
    outputs := [{ recipientAddress := "S", amount := 5 },
                { recipientAddress := "S", amount := 7 }]
    signature := "x" }

/-- A chain whose single block carries that transaction. -/
def chainWithDoubleOutputs : Blockchain :=
  { blocks := [{ transactions := [txDoubleToS]
                 ancestorHash := none
                 minerAddress := "m"
                 blockNumber := 0
                 validTransaction := true
                 nonce := 0
                 hash := "" }]
    transactionPool := [] }

/-- Default transaction for list indexing in statements. -/
def defaultTransaction : Transaction :=
  { walletAddress := none, inputs := [], outputs := [], signature := "" }

/-- A block correctly linked atop defaultBlock under the constant-"0" hash
function: numbered 1, pointing at hash "0", itself hashing to "0" which
passes the proof-of-work check. -/
def linkedBlock : Block :=
  { transactions := []
    ancestorHash := some ("0")
    minerAddress := ""
    blockNumber := 1
    validTransaction := true
    nonce := 0
    hash := "" }

/-- The effective comparison constant is strictly below the intended target
2 ^ 252: the float detour loses the low 60 decimal digits. -/
theorem TARGET_DECIMAL_lt_TARGET : Block.TARGET_DECIMAL < Block.TARGET := by
  decide

/-- TARGET_DECIMAL lies inside the rounding interval of the double 2 ^ 252,
so reading "7.237005577332262e+75" back as a double returns exactly 2 ^ 252. -/
theorem TARGET_DECIMAL_rounds :
    Block.TARGET - 2 ^ 198 ≤ Block.TARGET_DECIMAL ∧
      Block.TARGET_DECIMAL ≤ Block.TARGET + 2 ^ 199 := by
  constructor <;> decide

/-- The lower 15-significant-digit neighbour does not round back to 2 ^ 252,
so 15 digits do not suffice (shorter mantissas are a subset of these). -/
theorem TARGET_DECIMAL_shortest_lo :
    ¬ (Block.TARGET - 2 ^ 198 ≤ 723700557733226 * 10 ^ 61 ∧
        723700557733226 * 10 ^ 61 ≤ Block.TARGET + 2 ^ 199) := by
  decide

/-- The upper 15-significant-digit neighbour does not round back either. -/
theorem TARGET_DECIMAL_shortest_hi :
    ¬ (Block.TARGET - 2 ^ 198 ≤ 723700557733227 * 10 ^ 61 ∧
        723700557733227 * 10 ^ 61 ≤ Block.TARGET + 2 ^ 199) := by
  decide

/-- Among the 16-digit candidates that round back to 2 ^ 252, the chosen
mantissa is strictly closest to it, as the toString algorithm requires. -/
theorem TARGET_DECIMAL_closest :
    Block.TARGET - Block.TARGET_DECIMAL < 7237005577332263 * 10 ^ 60 - Block.TARGET := by
  decide

/-- The reduce(..., (sum, x) => f x + sum, 0) pattern of the source as a sum. -/
theorem foldl_add_eq_add_sum {α : Type} (f : α → Int) :
    ∀ (l : List α) (a : Int), l.foldl (fun sum x => f x + sum) a = a + (l.map f).sum
  | [], a => by simp
  | x :: l, a => by
    simp only [List.foldl_cons, List.map_cons, List.sum_cons,
      foldl_add_eq_add_sum f l]
    ring

/-- totalIn is the sum of the resolved input amounts. -/
theorem Transaction.totalIn_eq_sum (t : Transaction) :
    t.totalIn = (t.inputs.map fun txin => txin.parentOutput.amount).sum := by
  simpa using foldl_add_eq_add_sum (fun txin : TransactionInput => txin.parentOutput.amount)
    t.inputs 0

/-- totalOut is the sum of the output amounts. -/
theorem Transaction.totalOut_eq_sum (t : Transaction) :
    t.totalOut = (t.outputs.map TransactionOutput.amount).sum := by
  simpa using foldl_add_eq_add_sum TransactionOutput.amount t.outputs 0

/-- The every-against-inputs[0] check of the source, as a quantifier. -/
theorem Transaction.sameWallet_iff (t : Transaction) :
    t.sameWallet = true ↔
      ∀ txin ∈ t.inputs, txin.parentOutput.recipientAddress =
        (t.inputs.getD 0 defaultInput).parentOutput.recipientAddress := by
  cases h : t.inputs with
  | nil => simp [Transaction.sameWallet, h]
  | cons x xs =>
    simp [Transaction.sameWallet, h, List.all_eq_true]

/-- C2: the claim requires isPoWValid to accept a hash whose numeric value
equals the target 2 ^ (256 - DIFFICULTY) exactly, with no floating-point
approximation.  The code compares against BigNumber of the double's
toString, 7237005577332262e60, which is strictly below the target, so the
boundary digest (value exactly 2 ^ 252, well-formed 64-digit hex) is
rejected: the code contradicts the spec's explicitly intended boundary
behaviour. -/
theorem isPoWValid_boundary_bug :
    powBoundaryHex.length = 64 ∧
    parseBigNumber ("0x" ++ powBoundaryHex) = some (Block.TARGET, 0) ∧
    Block.TARGET = 2 ^ (256 - Block.DIFFICULTY) ∧
    Block.isPoWValid powBoundaryHex = false ∧
    Block.TARGET_DECIMAL < Block.TARGET := by
  refine ⟨by decide, by decide, rfl, by decide, by decide⟩

/-- C3 counterexample: the one-character string "0" has the wrong length for
a SHA-256 digest, yet isPoWValid parses it as the number 0 and accepts it
instead of returning false as the claim demands for malformed (wrong-length)
input. -/
theorem isPoWValid_wrong_length_accepted :
    ("0").length ≠ 64 ∧ Block.isPoWValid ("0") = true := by
  refine ⟨by decide, by decide⟩

/-- C3 (amended): isPoWValid is total by construction; it returns false
exactly when BigNumber rejects the (possibly "0x"-prefixed,
whitespace-trimmed) input as a base-16 numeral, and performs no length or
digest-shape check at all: any input that parses — including fractional hex
and whitespace-padded strings — is compared numerically against the
effective target. -/
theorem isPoWValid_total_spec (pow : String) :
    (parseBigNumber (if startsWith0x pow then pow else "0x" ++ pow) = none →
      Block.isPoWValid pow = false) ∧
    ∀ i f20, parseBigNumber (if startsWith0x pow then pow else "0x" ++ pow) =
        some (i, f20) →
      (Block.isPoWValid pow = true ↔
        i * 10 ^ 20 + f20 ≤ Block.TARGET_DECIMAL * 10 ^ 20) := by
  unfold Block.isPoWValid
  constructor
  · intro hnone
    simp [hnone]
  · intro i f20 hv
    simp [hv]

/-- C3 witness: a non-hex input fails the parse and is rejected, while the
fractional input "1.8" (= 1.5) and the whitespace-padded input "0x5 " both
parse and are accepted. -/
theorem isPoWValid_total_spec_witness :
    Block.isPoWValid ("zz") = false ∧
    Block.isPoWValid ("1.8") = true ∧
    Block.isPoWValid ("0x5 ") = true :=
  ⟨(isPoWValid_total_spec ("zz")).1 (by decide),
    ((isPoWValid_total_spec ("1.8")).2 1 50000000000000000000 (by decide)).mpr
      (by decide),
    ((isPoWValid_total_spec ("0x5 ")).2 5 0 (by decide)).mpr (by decide)⟩

/-- C4 counterexample: with a signature check that accepts, the source's
verify accepts a transaction whose input belongs to B while the signer
claims A; the claim's verification (ownership tied to the signer's address)
rejects it, so verify is not the conjunction the claim describes. -/
theorem verify_ownership_counterexample :
    Transaction.verify vsAlwaysTrue encTrivial txForeignInput = true ∧
    Transaction.verifyClaimed vsAlwaysTrue encTrivial txForeignInput = false ∧
    txForeignInput.walletAddress = some ("A") ∧
    (txForeignInput.inputs.map fun txin => txin.parentOutput.recipientAddress) = ["B"] := by
  refine ⟨by decide, by decide, rfl, rfl⟩

/-- C4 (amended): for a transaction with a wallet, verify returns the
conjunction of (1) all inputs resolving to the same recipientAddress as the
first input (the signer's address is not consulted), (2) the signature check
on the sender's address over the canonical encoding, and (3) output total at
most resolved input total; consequently outputs summing to inputs + 1 are
rejected. -/
theorem Transaction.verify_spec (vs : VerifySig) (enc : EncodeTx) (t : Transaction) :
    (Transaction.verify vs enc t = true ↔
      ((∀ txin ∈ t.inputs, txin.parentOutput.recipientAddress =
          (t.inputs.getD 0 defaultInput).parentOutput.recipientAddress) ∧
        vs (t.walletAddress.getD ("")) (enc t.inputs t.outputs) t.signature = true ∧
        (t.outputs.map TransactionOutput.amount).sum ≤
          (t.inputs.map fun txin => txin.parentOutput.amount).sum)) ∧
    ((t.outputs.map TransactionOutput.amount).sum =
        (t.inputs.map fun txin => txin.parentOutput.amount).sum + 1 →
      Transaction.verify vs enc t = false) := by
  have hiff : Transaction.verify vs enc t = true ↔
      ((∀ txin ∈ t.inputs, txin.parentOutput.recipientAddress =
          (t.inputs.getD 0 defaultInput).parentOutput.recipientAddress) ∧
        vs (t.walletAddress.getD ("")) (enc t.inputs t.outputs) t.signature = true ∧
        (t.outputs.map TransactionOutput.amount).sum ≤
          (t.inputs.map fun txin => txin.parentOutput.amount).sum) := by
    rw [Transaction.verify]
    simp only [Bool.and_eq_true, decide_eq_true_eq, Transaction.totalIn_eq_sum,
      Transaction.totalOut_eq_sum, Transaction.sameWallet_iff, and_assoc]
  refine ⟨hiff, ?_⟩
  intro hsum
  cases hv : Transaction.verify vs enc t with
  | false => rfl
  | true =>
    rcases hiff.mp hv with ⟨-, -, hle⟩
    omega

/-- C4 witness: a well-owned, funded, accepted transaction instantiating the
amended characterisation. -/
theorem verify_spec_witness :
    Transaction.verify vsAlwaysTrue encTrivial
      { walletAddress := some ("A")
        inputs := [{ parentOutput := { recipientAddress := "A", amount := 10 } }]
        outputs := [{ recipientAddress := "B", amount := 3 }]
        signature := "sig" } = true :=
  (Transaction.verify_spec vsAlwaysTrue encTrivial _).1.mpr
    ⟨by decide, by decide, by decide⟩

/-- C10: a transaction with a signer, no inputs and positive total output is
always rejected by verify, whatever the signature checker says: the
sufficiency check compares against an input total of zero. -/
theorem verify_empty_inputs_rejected (vs : VerifySig) (enc : EncodeTx) (t : Transaction)
    (a : String) (_hw : t.walletAddress = some a) (hi : t.inputs = [])
    (ho : 0 < (t.outputs.map TransactionOutput.amount).sum) :
    Transaction.verify vs enc t = false := by
  have h1 : t.totalIn = 0 := by simp [Transaction.totalIn, hi]
  have h2 : decide (t.totalOut ≤ t.totalIn) = false := by
    rw [h1, Transaction.totalOut_eq_sum]
    simpa using ho
  simp [Transaction.verify, h2]

/-- C10 witness: a signed input-less payment of 5 is rejected even by an
always-accepting signature checker. -/
theorem verify_empty_inputs_rejected_witness :
    Transaction.verify vsAlwaysTrue encTrivial
      { walletAddress := some ("A")
        inputs := []
        outputs := [{ recipientAddress := "B", amount := 5 }]
        signature := "sig" } = false :=
  verify_empty_inputs_rejected vsAlwaysTrue encTrivial _ "A" rfl rfl (by decide)

/-- C9: loading from empty storage is not an error: the chain comes up as the
one-element list holding the genesis block (which the validation pass inside
load accepts), and the transaction pool comes up empty. -/
theorem load_empty_storage (h : HashFn) (genesis : Block) :
    Blockchain.load h genesis none = Except.ok [genesis] ∧
    [genesis].getD 0 defaultBlock = genesis ∧
    Blockchain.initTransactionPool none = [] := by
  refine ⟨?_, rfl, rfl⟩
  simp [Blockchain.load, Blockchain.verify, Blockchain.verifyFrom]

/-- C6: mining from a pool with a non-verifying transaction raises
'Invalid transaction' and returns the state unchanged (same chain, same
pool); when every pooled transaction verifies, the block assembled from the
coinbase plus the pool snapshot is appended, the pool is cleared and the
block is returned. -/
theorem createBlock_spec (vs : VerifySig) (enc : EncodeTx) (mineFn : MineFn)
    (s : Blockchain) (minerAddress : String) :
    ((∃ t ∈ s.transactionPool, Transaction.verify vs enc t = false) →
      Blockchain.createBlock vs enc mineFn s minerAddress =
        (s, Except.error ("Invalid transaction"))) ∧
    ((∀ t ∈ s.transactionPool, Transaction.verify vs enc t = true) →
      ∃ b, Blockchain.createBlock vs enc mineFn s minerAddress =
          ({ s with blocks := s.blocks ++ [b], transactionPool := [] }, Except.ok b) ∧
        b.transactions =
          GenesisTransaction minerAddress Block.MINING_REWARD :: s.transactionPool ∧
        b.validTransaction = true ∧
        b.ancestorHash = s.getLastBlock.map (fun a => a.hash)) := by
  constructor
  · rintro ⟨t, ht, hf⟩
    have hall : s.transactionPool.all (Transaction.verify vs enc) = false := by
      rw [List.all_eq_false]
      exact ⟨t, ht, by simp [hf]⟩
    simp [Blockchain.createBlock, Block.make, hall]
  · intro hall
    have hall' : s.transactionPool.all (Transaction.verify vs enc) = true :=
      List.all_eq_true.mpr hall
    refine ⟨Block.make vs enc mineFn s.transactionPool s.getLastBlock minerAddress,
      ?_, ?_, ?_, ?_⟩ <;>
      simp [Blockchain.createBlock, Block.make, hall']

/-- C6 witness: a pool holding one transaction rejected by the signature
checker leaves the one-block chain and the pool as they were, with the
error raised; an empty pool mines successfully. -/
theorem createBlock_spec_witness :
    (Blockchain.createBlock vsAlwaysFalse encTrivial mineTrivial
        { blocks := [defaultBlock], transactionPool := [txForeignInput] } ("M") =
      ({ blocks := [defaultBlock], transactionPool := [txForeignInput] },
        Except.error ("Invalid transaction"))) ∧
    ∃ b, Blockchain.createBlock vsAlwaysTrue encTrivial mineTrivial
        { blocks := [defaultBlock], transactionPool := [] } ("M") =
        ({ blocks := [defaultBlock] ++ [b], transactionPool := [] }, Except.ok b) ∧
      b.transactions = GenesisTransaction ("M") Block.MINING_REWARD :: [] ∧
      b.validTransaction = true ∧
      b.ancestorHash =
        (Blockchain.getLastBlock { blocks := [defaultBlock], transactionPool := [] }).map
          (fun a => a.hash) :=
  ⟨(createBlock_spec vsAlwaysFalse encTrivial mineTrivial _ _).1
      ⟨txForeignInput, by simp, by decide⟩,
    (createBlock_spec vsAlwaysTrue encTrivial mineTrivial _ _).2 (by simp)⟩

/-- The blocks.reduce((all, curr) => all ++ curr.transactions, []) flattening
of computeBalance, as a join. -/
theorem foldl_append_transactions :
    ∀ (bs : List Block) (acc : List Transaction),
      bs.foldl (fun all curr => all ++ curr.transactions) acc =
        acc ++ (bs.map Block.transactions).flatten
  | [], acc => by simp
  | b :: bs, acc => by
    simp [List.foldl_cons, foldl_append_transactions bs]

/-- The output-crediting inner loop of computeBalance, as a filtered sum. -/
theorem foldl_outputs_credit (addr : String) :
    ∀ (outs : List TransactionOutput) (b : Int),
      outs.foldl
          (fun b txout => if txout.recipientAddress == addr then b + txout.amount else b) b =
        b + ((outs.filter fun o => o.recipientAddress == addr).map
          TransactionOutput.amount).sum
  | [], b => by simp
  | o :: outs, b => by
    cases hc : (o.recipientAddress == addr) with
    | true =>
      simp only [List.foldl_cons, hc, if_true, List.filter_cons, List.map_cons,
        List.sum_cons, foldl_outputs_credit addr outs]
      ring
    | false =>
      simp only [List.foldl_cons, hc, if_false, List.filter_cons, Bool.false_eq_true,
        foldl_outputs_credit addr outs]

/-- The input-debiting inner loop of computeBalance, as a filtered sum. -/
theorem foldl_inputs_debit (addr : String) :
    ∀ (ins : List TransactionInput) (b : Int),
      ins.foldl
          (fun b txin =>
            if txin.parentOutput.recipientAddress == addr then b - txin.parentOutput.amount
            else b) b =
        b - ((ins.filter fun i => i.parentOutput.recipientAddress == addr).map
          fun i => i.parentOutput.amount).sum
  | [], b => by simp
  | i :: ins, b => by
    cases hc : (i.parentOutput.recipientAddress == addr) with
    | true =>
      simp only [List.foldl_cons, hc, if_true, List.filter_cons, List.map_cons,
        List.sum_cons, foldl_inputs_debit addr ins]
      ring
    | false =>
      simp only [List.foldl_cons, hc, if_false, List.filter_cons, Bool.false_eq_true,
        foldl_inputs_debit addr ins]

/-- The transaction loop of computeBalance, as a sum of per-transaction nets. -/
theorem foldl_txNet (addr : String) :
    ∀ (txs : List Transaction) (b : Int),
      txs.foldl
          (fun balance tx =>
            tx.outputs.foldl
              (fun b txout =>
                if txout.recipientAddress == addr then b + txout.amount else b)
              (tx.inputs.foldl
                (fun b txin =>
                  if txin.parentOutput.recipientAddress == addr then
                    b - txin.parentOutput.amount
                  else b)
                balance)) b =
        b + (txs.map (txNet addr)).sum
  | [], b => by simp
  | tx :: txs, b => by
    rw [List.foldl_cons, foldl_txNet addr txs, foldl_inputs_debit addr,
      foldl_outputs_credit addr]
    simp only [List.map_cons, List.sum_cons, txNet]
    ring

/-- computeBalance walks every transaction of every block and nets credited
outputs against debited inputs. -/
theorem computeBalance_eq_sum (s : Blockchain) (addr : String) :
    s.computeBalance addr = ((s.blocks.map Block.transactions).flatten.map (txNet addr)).sum := by
  rw [Blockchain.computeBalance]
  simp only [foldl_append_transactions s.blocks [], List.nil_append]
  simpa using foldl_txNet addr ((s.blocks.map Block.transactions).flatten) 0

/-- C7 counterexample: mine the claim's fresh block (coinbase only, to "A")
atop the freshly initialized genesis chain; the address '123456' is distinct
from "A", yet its balance is 25, not 0: computeBalance also walks the
genesis block's coinbase, which pays the genesis miner '123456'. -/
theorem computeBalance_genesis_miner_nonzero :
    Blockchain.SATOSHI_NAKAMOTO ≠ ("A") ∧
    (Blockchain.createBlock vsAlwaysTrue encTrivial mineTrivial
        { blocks := [Blockchain.GENESIS_BLOCK vsAlwaysTrue encTrivial mineTrivial],
          transactionPool := [] } ("A")).1.computeBalance
      Blockchain.SATOSHI_NAKAMOTO = 25 := by
  refine ⟨by decide, by decide⟩

/-- C7 (amended): computeBalance nets every credited output against every
debited input across the whole chain; after mining a fresh block holding
only the coinbase to A (distinct from the genesis miner '123456'),
computeBalance(A) = MINING_REWARD and every address other than A and
'123456' has balance 0 ('123456' keeps the genesis coinbase reward). -/
theorem computeBalance_spec (vs : VerifySig) (enc : EncodeTx) (mineFn : MineFn)
    (A : String) (hA : A ≠ Blockchain.SATOSHI_NAKAMOTO) :
    (∀ (s : Blockchain) (addr : String),
      s.computeBalance addr =
        ((s.blocks.map Block.transactions).flatten.map (txNet addr)).sum) ∧
    (Blockchain.createBlock vs enc mineFn
        { blocks := [Blockchain.GENESIS_BLOCK vs enc mineFn], transactionPool := [] }
        A).1.computeBalance A = Block.MINING_REWARD ∧
    (∀ B, B ≠ A → B ≠ Blockchain.SATOSHI_NAKAMOTO →
      (Blockchain.createBlock vs enc mineFn
          { blocks := [Blockchain.GENESIS_BLOCK vs enc mineFn], transactionPool := [] }
          A).1.computeBalance B = 0) := by
  have hSA : (Blockchain.SATOSHI_NAKAMOTO == A) = false :=
    beq_eq_false_iff_ne.mpr (Ne.symm hA)
  refine ⟨fun s addr => computeBalance_eq_sum s addr, ?_, ?_⟩
  · rw [computeBalance_eq_sum]
    simp [Blockchain.createBlock, Block.make, Blockchain.GENESIS_BLOCK, GenesisBlock,
      GenesisTransaction, Blockchain.getLastBlock, txNet, hSA, Block.MINING_REWARD]
  · intro B hBA hBS
    have h1 : (Blockchain.SATOSHI_NAKAMOTO == B) = false :=
      beq_eq_false_iff_ne.mpr (Ne.symm hBS)
    have h2 : (A == B) = false := beq_eq_false_iff_ne.mpr (Ne.symm hBA)
    rw [computeBalance_eq_sum]
    simp [Blockchain.createBlock, Block.make, Blockchain.GENESIS_BLOCK, GenesisBlock,
      GenesisTransaction, Blockchain.getLastBlock, txNet, h1, h2]

/-- C7 witness: concrete signature checker, encoder and miner; A = "A" gets
the reward, the unrelated address "B" stays at 0. -/
theorem computeBalance_spec_witness :
    (Blockchain.createBlock vsAlwaysTrue encTrivial mineTrivial
        { blocks := [Blockchain.GENESIS_BLOCK vsAlwaysTrue encTrivial mineTrivial],
          transactionPool := [] } ("A")).1.computeBalance ("A") = Block.MINING_REWARD ∧
    (Blockchain.createBlock vsAlwaysTrue encTrivial mineTrivial
        { blocks := [Blockchain.GENESIS_BLOCK vsAlwaysTrue encTrivial mineTrivial],
          transactionPool := [] } ("A")).1.computeBalance ("B") = 0 :=
  ⟨(computeBalance_spec vsAlwaysTrue encTrivial mineTrivial "A" (by decide)).2.1,
    (computeBalance_spec vsAlwaysTrue encTrivial mineTrivial "A" (by decide)).2.2
      "B" (by decide) (by decide)⟩

/-- When findIndex hits, the indexed element is the first satisfying one. -/
theorem findIdx?_getD_eq_find? (p : TransactionOutput → Bool) :
    ∀ (outs : List TransactionOutput) (i : Nat),
      outs.findIdx? p = some i →
      outs.find? p = some (outs.getD i { recipientAddress := "", amount := 0 })
  | [], i, h => by simp [List.findIdx?_nil] at h
  | o :: outs, i, h => by
    rw [List.findIdx?_cons] at h
    cases hp : p o with
    | true =>
      rw [hp, if_pos rfl] at h
      cases h
      simp [List.find?_cons, hp]
    | false =>
      rw [hp] at h
      simp only [Bool.false_eq_true, if_false, List.findIdx?_succ] at h
      rcases Option.map_eq_some'.mp h with ⟨j, hj, hij⟩
      subst hij
      simp [List.find?_cons, hp, List.getD_cons_succ,
        findIdx?_getD_eq_find? p outs j hj]

/-- When findIndex misses, find? misses as well. -/
theorem findIdx?_none_find? (p : TransactionOutput → Bool)
    (outs : List TransactionOutput) (h : outs.findIdx? p = none) :
    outs.find? p = none := by
  rw [List.find?_eq_none]
  intro x hx
  have := List.findIdx?_eq_none_iff.mp h x hx
  simp [this]

/-- One scan step collects exactly the first matching output, if any. -/
theorem collectInputStep_eq (senderAddress : String) (acc : List TransactionInput)
    (tx : Transaction) :
    collectInputStep senderAddress acc tx =
      acc ++ ((tx.outputs.find? fun txout => txout.recipientAddress == senderAddress).map
        fun o => ({ parentOutput := o } : TransactionInput)).toList := by
  rw [collectInputStep]
  cases hf : tx.outputs.findIdx? (fun txout => txout.recipientAddress == senderAddress) with
  | none =>
    simp [findIdx?_none_find? _ tx.outputs hf]
  | some i =>
    simp [findIdx?_getD_eq_find? _ tx.outputs i hf]

/-- The transaction-level fold of submitTransaction collects, per
transaction, the first output paying the sender. -/
theorem foldl_collectInputStep (senderAddress : String) :
    ∀ (txs : List Transaction) (acc : List TransactionInput),
      txs.foldl (collectInputStep senderAddress) acc =
        acc ++ txs.filterMap fun tx =>
          (tx.outputs.find? fun txout => txout.recipientAddress == senderAddress).map
            fun o => { parentOutput := o }
  | [], acc => by simp
  | tx :: txs, acc => by
    rw [List.foldl_cons, collectInputStep_eq, foldl_collectInputStep senderAddress txs,
      List.append_assoc, List.filterMap_cons]
    cases tx.outputs.find? fun txout => txout.recipientAddress == senderAddress <;> simp

/-- The block-level fold of submitTransaction, flattened. -/
theorem foldl_blocks_collect (senderAddress : String) :
    ∀ (bs : List Block) (acc : List TransactionInput),
      bs.foldl
          (fun acc block => block.transactions.foldl (collectInputStep senderAddress) acc)
          acc =
        acc ++ (bs.map Block.transactions).flatten.filterMap fun tx =>
          (tx.outputs.find? fun txout => txout.recipientAddress == senderAddress).map
            fun o => { parentOutput := o }
  | [], acc => by simp
  | b :: bs, acc => by
    rw [List.foldl_cons, foldl_collectInputStep, foldl_blocks_collect senderAddress bs]
    simp [List.filterMap_append, List.append_assoc]

/-- C8 (amended): submitTransaction appends to the pool exactly one signed
transaction whose inputs are the first sender-addressed output of each chain
transaction (at most one per transaction, spent or not) and whose outputs
are the payment and the change |balance - amount| back to the sender. -/
theorem submitTransaction_spec (enc : EncodeTx) (sign : SignFn) (s : Blockchain)
    (senderAddress recipientAddress : String) (value : Int) :
    Blockchain.submitTransaction enc sign s senderAddress recipientAddress value =
      { s with transactionPool := s.transactionPool ++
          [{ walletAddress := some senderAddress
             inputs := firstOutputInputs s senderAddress
             outputs := [{ recipientAddress := recipientAddress, amount := value },
                         { recipientAddress := senderAddress,
                           amount := |s.computeBalance senderAddress - value| }]
             signature := sign (enc (firstOutputInputs s senderAddress)
               [{ recipientAddress := recipientAddress, amount := value },
                { recipientAddress := senderAddress,
                  amount := |s.computeBalance senderAddress - value| }]) }] } := by
  rw [Blockchain.submitTransaction]
  rw [foldl_blocks_collect senderAddress s.blocks []]
  rw [List.nil_append]
  rfl

/-- C8 counterexample: two outputs on the chain are addressed to "S", but
the transaction submitTransaction appends collects only one input, the
first matching output of the transaction (amount 5); the claim's "every
output ever addressed to the sender" would collect both. -/
theorem submitTransaction_first_match_counterexample :
    ((chainWithDoubleOutputs.blocks.map Block.transactions).flatten.map
        Transaction.outputs).flatten.filter
      (fun o => o.recipientAddress == ("S")) =
      [{ recipientAddress := "S", amount := 5 },
       { recipientAddress := "S", amount := 7 }] ∧
    ((Blockchain.submitTransaction encTrivial signTrivial chainWithDoubleOutputs
          ("S") ("R") 1).transactionPool.getD 0 defaultTransaction).inputs =
      [{ parentOutput := { recipientAddress := "S", amount := 5 } }] := by
  refine ⟨by decide, by decide⟩

/-- The linkage loop of chain validation, characterised positionally: block
j of the tail must be numbered i + j, its stored ancestor hash must be the
hash of its predecessor (prev for j = 0), and its own hash must pass the
proof-of-work predicate. -/
theorem verifyFrom_iff (h : HashFn) :
    ∀ (rest : List Block) (prev : Block) (i : Nat),
      Blockchain.verifyFrom h prev rest i = true ↔
        ∀ j, j < rest.length →
          ((rest.getD j defaultBlock).blockNumber = ((i + j : Nat) : Int) ∧
           (rest.getD j defaultBlock).ancestorHash =
             some (h (if j = 0 then prev else rest.getD (j - 1) defaultBlock)) ∧
           Block.isPoWValid (h (rest.getD j defaultBlock)) = true)
  | [], prev, i => by simp [Blockchain.verifyFrom]
  | current :: rest, prev, i => by
    rw [Blockchain.verifyFrom]
    by_cases h1 : current.blockNumber = (i : Int)
    case neg =>
      rw [if_pos h1]
      refine iff_of_false (by simp) fun hall => ?_
      rcases hall 0 (by simp) with ⟨hbn, -, -⟩
      exact h1 (by simpa using hbn)
    case pos =>
    rw [if_neg (by simp [h1])]
    by_cases h2 : current.ancestorHash = some (h prev)
    case neg =>
      rw [if_pos h2]
      refine iff_of_false (by simp) fun hall => ?_
      rcases hall 0 (by simp) with ⟨-, hanc, -⟩
      exact h2 (by simpa using hanc)
    case pos =>
    rw [if_neg (by simp [h2])]
    by_cases h3 : Block.isPoWValid (h current) = true
    case neg =>
      rw [if_pos (by simpa using h3)]
      refine iff_of_false (by simp) fun hall => ?_
      rcases hall 0 (by simp) with ⟨-, -, hpow⟩
      exact h3 (by simpa using hpow)
    case pos =>
    rw [if_neg (by simp [h3])]
    rw [verifyFrom_iff h rest current (i + 1)]
    constructor
    · intro htail j hj
      cases j with
      | zero => exact ⟨by simpa using h1, by simpa using h2, by simpa using h3⟩
      | succ j =>
        have hj' : j < rest.length := by simpa using hj
        rcases htail j hj' with ⟨ha, hb, hc⟩
        rw [List.getD_cons_succ]
        refine ⟨?_, ?_, hc⟩
        · rw [ha]
          congr 1
          omega
        · rw [hb]
          congr 2
          simp only [Nat.add_sub_cancel]
          cases j with
          | zero => simp
          | succ k => simp
    · intro hall j hj
      have hmem := hall (j + 1) (by simpa using Nat.succ_lt_succ hj)
      simp only [Nat.add_sub_cancel, List.getD_cons_succ] at hmem
      rcases hmem with ⟨ha, hb, hc⟩
      refine ⟨?_, ?_, hc⟩
      · rw [ha]
        congr 1
        omega
      · rw [hb]
        congr 2
        cases j with
        | zero => simp
        | succ k => simp

/-- C1: chain validation succeeds exactly when the sequence is non-empty,
its first block is (structurally) the canonical genesis block, and every
later block i carries block number i, stores the hash of block i - 1 as its
ancestor hash, and hashes below the proof-of-work target. -/
theorem Blockchain.verify_chain_spec (h : HashFn) (genesis : Block) (blocks : List Block) :
    Blockchain.verify h genesis blocks = true ↔
      (blocks ≠ [] ∧ blocks.getD 0 defaultBlock = genesis ∧
        ∀ i, 1 ≤ i → i < blocks.length →
          ((blocks.getD i defaultBlock).blockNumber = (i : Int) ∧
           (blocks.getD i defaultBlock).ancestorHash =
             some (h (blocks.getD (i - 1) defaultBlock)) ∧
           Block.isPoWValid (h (blocks.getD i defaultBlock)) = true)) := by
  cases blocks with
  | nil => simp [Blockchain.verify]
  | cons b0 rest =>
    rw [Blockchain.verify]
    by_cases hg : b0 = genesis
    case neg =>
      rw [if_pos hg]
      refine iff_of_false (by simp) ?_
      rintro ⟨-, hhead, -⟩
      exact hg (by simpa using hhead)
    case pos =>
    rw [if_neg (by simp [hg])]
    rw [verifyFrom_iff h rest b0 1]
    constructor
    · intro htail
      refine ⟨by simp, by simpa using hg, ?_⟩
      intro i h1i hilen
      obtain ⟨k, rfl⟩ : ∃ k, i = k + 1 := ⟨i - 1, by omega⟩
      have hk : k < rest.length := by
        simpa using hilen
      rcases htail k hk with ⟨ha, hb, hc⟩
      simp only [Nat.add_sub_cancel, List.getD_cons_succ]
      refine ⟨?_, ?_, hc⟩
      · rw [ha]
        congr 1
        omega
      · rw [hb]
        congr 2
        cases k with
        | zero => simp
        | succ k => simp
    · rintro ⟨-, -, hall⟩ j hj
      have hmem := hall (j + 1) (by omega) (by simpa using Nat.succ_lt_succ hj)
      simp only [Nat.add_sub_cancel, List.getD_cons_succ] at hmem
      rcases hmem with ⟨ha, hb, hc⟩
      refine ⟨?_, ?_, hc⟩
      · rw [ha]
        congr 1
        omega
      · rw [hb]
        congr 2
        cases j with
        | zero => simp
        | succ k => simp

/-- C1 witness: a two-block chain satisfying all three positional checks
under hashZero validates. -/
theorem verify_chain_spec_witness :
    Blockchain.verify hashZero defaultBlock [defaultBlock, linkedBlock] = true :=
  (Blockchain.verify_chain_spec hashZero defaultBlock [defaultBlock, linkedBlock]).mpr
    ⟨by simp, rfl, by
      intro i h1i hilen
      have : i = 1 := by
        simp only [List.length_cons, List.length_nil] at hilen
        omega
      subst this
      exact ⟨by decide, by decide, by decide⟩⟩

/-- A chain accepted by validation is non-empty. -/
theorem verify_pos_length (h : HashFn) (genesis : Block) (c : List Block)
    (hv : Blockchain.verify h genesis c = true) : 0 < c.length := by
  cases c with
  | nil => simp [Blockchain.verify] at hv
  | cons b rest => simp

/-- One step of the longest-valid-candidate length. -/
theorem maxValidLength_cons (h : HashFn) (genesis : Block) (c : List Block)
    (bs : List (List Block)) :
    Blockchain.maxValidLength h genesis (c :: bs) =
      if Blockchain.verify h genesis c then
        max c.length (Blockchain.maxValidLength h genesis bs)
      else Blockchain.maxValidLength h genesis bs := rfl

/-- Invariant of the candidate scan: starting from an accumulator whose
candidate (if any) is valid with the recorded length, the scan's length is
the max of the accumulator's and the best valid candidate's, its returned
candidate (if any) is valid, of exactly that length, and comes from the
list or the accumulator, and it returns no candidate exactly when the
accumulator held none and no valid candidate exceeds the accumulator
length. -/
theorem bestCandidateAux_spec (h : HashFn) (genesis : Block) :
    ∀ (bs : List (List Block)) (m : Nat) (o : Option (List Block)),
      (∀ c, o = some c → Blockchain.verify h genesis c = true ∧ c.length = m) →
      ((Blockchain.bestCandidateAux h genesis bs (m, o)).1 =
          max m (Blockchain.maxValidLength h genesis bs) ∧
        (∀ c, (Blockchain.bestCandidateAux h genesis bs (m, o)).2 = some c →
          Blockchain.verify h genesis c = true ∧
          c.length = (Blockchain.bestCandidateAux h genesis bs (m, o)).1 ∧
          (c ∈ bs ∨ o = some c)) ∧
        ((Blockchain.bestCandidateAux h genesis bs (m, o)).2 = none ↔
          (o = none ∧ ∀ c ∈ bs, Blockchain.verify h genesis c = true → c.length ≤ m)))
  | [], m, o, hacc => by
    refine ⟨by simp [Blockchain.bestCandidateAux, Blockchain.maxValidLength], ?_, ?_⟩
    · intro c hc
      rcases hacc c hc with ⟨hv, hl⟩
      exact ⟨hv, by simp [Blockchain.bestCandidateAux, Blockchain.maxValidLength, hl],
        Or.inr hc⟩
    · simp [Blockchain.bestCandidateAux]
  | candidate :: bs, m, o, hacc => by
    by_cases hskip : candidate.length ≤ m
    · have hstep : Blockchain.bestCandidateAux h genesis (candidate :: bs) (m, o) =
          Blockchain.bestCandidateAux h genesis bs (m, o) := by
        rw [Blockchain.bestCandidateAux]
        simp [hskip]
      obtain ⟨ih1, ih2, ih3⟩ := bestCandidateAux_spec h genesis bs m o hacc
      rw [hstep]
      refine ⟨?_, ?_, ?_⟩
      · rw [ih1, maxValidLength_cons]
        split_ifs with hvc
        · omega
        · rfl
      · intro c hc
        rcases ih2 c hc with ⟨hv, hl, hm⟩
        exact ⟨hv, hl, hm.imp_left (List.mem_cons_of_mem candidate)⟩
      · rw [ih3, List.forall_mem_cons]
        simp [hskip]
    · cases hvc : Blockchain.verify h genesis candidate with
      | true =>
        have hstep : Blockchain.bestCandidateAux h genesis (candidate :: bs) (m, o) =
            Blockchain.bestCandidateAux h genesis bs (candidate.length, some candidate) := by
          rw [Blockchain.bestCandidateAux]
          simp [hskip, hvc]
        obtain ⟨ih1, ih2, ih3⟩ := bestCandidateAux_spec h genesis bs candidate.length
          (some candidate) (by rintro c rfl2; cases rfl2; exact ⟨hvc, rfl⟩)
        rw [hstep]
        refine ⟨?_, ?_, ?_⟩
        · rw [ih1, maxValidLength_cons, if_pos hvc]
          omega
        · intro c hc
          rcases ih2 c hc with ⟨hv, hl, hm⟩
          refine ⟨hv, hl, Or.inl ?_⟩
          rcases hm with hm | hm
          · exact List.mem_cons_of_mem candidate hm
          · cases hm
            exact List.mem_cons_self candidate bs
        · rw [ih3]
          constructor
          · rintro ⟨hcontra, -⟩
            cases hcontra
          · rintro ⟨-, hall⟩
            exact absurd (hall candidate (List.mem_cons_self candidate bs) hvc) hskip
      | false =>
        have hstep : Blockchain.bestCandidateAux h genesis (candidate :: bs) (m, o) =
            Blockchain.bestCandidateAux h genesis bs (m, o) := by
          rw [Blockchain.bestCandidateAux]
          simp [hskip, hvc]
        obtain ⟨ih1, ih2, ih3⟩ := bestCandidateAux_spec h genesis bs m o hacc
        rw [hstep]
        refine ⟨?_, ?_, ?_⟩
        · rw [ih1, maxValidLength_cons, if_neg (by simp [hvc])]
        · intro c hc
          rcases ih2 c hc with ⟨hv, hl, hm⟩
          exact ⟨hv, hl, hm.imp_left (List.mem_cons_of_mem candidate)⟩
        · rw [ih3, List.forall_mem_cons]
          simp [hvc]

/-- C5: the consensus result is true exactly when some valid candidate
exists and (the longest valid candidate is strictly longer than the local
chain or the local chain fails validation); false means the state is left
untouched; true means the adopted chain is a valid candidate of maximal
valid length (the pool untouched); and with a valid local chain no
candidate of equal (or smaller) length is ever adopted. -/
theorem consensus_spec (h : HashFn) (genesis : Block) (s : Blockchain)
    (bs : List (List Block)) :
    ((Blockchain.consensus h genesis s bs).2 = true ↔
      ((∃ c ∈ bs, Blockchain.verify h genesis c = true) ∧
        (Blockchain.maxValidLength h genesis bs > s.blocks.length ∨
          Blockchain.verify h genesis s.blocks = false))) ∧
    ((Blockchain.consensus h genesis s bs).2 = false →
      (Blockchain.consensus h genesis s bs).1 = s) ∧
    ((Blockchain.consensus h genesis s bs).2 = true →
      (Blockchain.consensus h genesis s bs).1.blocks ∈ bs ∧
      Blockchain.verify h genesis (Blockchain.consensus h genesis s bs).1.blocks = true ∧
      (Blockchain.consensus h genesis s bs).1.blocks.length =
        Blockchain.maxValidLength h genesis bs ∧
      (Blockchain.consensus h genesis s bs).1.transactionPool = s.transactionPool) ∧
    (Blockchain.verify h genesis s.blocks = true →
      Blockchain.maxValidLength h genesis bs ≤ s.blocks.length →
      Blockchain.consensus h genesis s bs = (s, false)) := by
  obtain ⟨hfst, hsnd, hnone⟩ :=
    bestCandidateAux_spec h genesis bs 0 none (by simp)
  have hmax : (Blockchain.bestCandidateAux h genesis bs (0, none)).1 =
      Blockchain.maxValidLength h genesis bs := by
    rw [hfst]
    omega
  cases hbo : (Blockchain.bestCandidateAux h genesis bs (0, none)).2 with
  | none =>
    have hnov : ¬ ∃ c ∈ bs, Blockchain.verify h genesis c = true := by
      rcases hnone.mp hbo with ⟨-, hbound⟩
      rintro ⟨c, hc, hv⟩
      have hle := hbound c hc hv
      have hpos := verify_pos_length h genesis c hv
      omega
    have hcons : Blockchain.consensus h genesis s bs = (s, false) := by
      simp [Blockchain.consensus, hbo]
    rw [hcons]
    refine ⟨iff_of_false (by simp) ?_, fun _ => rfl, fun hcontra => absurd hcontra (by simp),
      fun _ _ => rfl⟩
    rintro ⟨hex, -⟩
    exact hnov hex
  | some c =>
    rcases hsnd c hbo with ⟨hvc, hlen, hmem⟩
    have hmem' : c ∈ bs := hmem.resolve_right (by simp)
    have hclen : c.length = Blockchain.maxValidLength h genesis bs := by
      rw [hlen, hmax]
    by_cases hcond : Blockchain.maxValidLength h genesis bs > s.blocks.length ∨
        Blockchain.verify h genesis s.blocks = false
    · have hbool :
          (decide ((Blockchain.bestCandidateAux h genesis bs (0, none)).1 >
              s.blocks.length) || !(Blockchain.verify h genesis s.blocks)) = true := by
        rcases hcond with h1 | h1
        · rw [hmax]
          simp [h1]
        · simp [h1]
      have hcons : Blockchain.consensus h genesis s bs = ({ s with blocks := c }, true) := by
        rw [Blockchain.consensus]
        rw [hbo]
        simp only [hbool, if_true]
      rw [hcons]
      exact ⟨iff_of_true rfl ⟨⟨c, hmem', hvc⟩, hcond⟩,
        fun hcontra => absurd hcontra (by simp),
        fun _ => ⟨hmem', hvc, hclen, rfl⟩,
        fun hvloc hle => by
          rcases hcond with h1 | h1
          · omega
          · rw [hvloc] at h1
            cases h1⟩
    · push_neg at hcond
      rcases hcond with ⟨hle, hvloc⟩
      have hvloc' : Blockchain.verify h genesis s.blocks = true := by
        simpa using hvloc
      have hbool :
          (decide ((Blockchain.bestCandidateAux h genesis bs (0, none)).1 >
              s.blocks.length) || !(Blockchain.verify h genesis s.blocks)) = false := by
        rw [hmax, hvloc']
        simp
        omega
      have hcons : Blockchain.consensus h genesis s bs = (s, false) := by
        rw [Blockchain.consensus]
        rw [hbo]
        rw [hbool]
        simp
      rw [hcons]
      refine ⟨iff_of_false (by simp) ?_, fun _ => rfl,
        fun hcontra => absurd hcontra (by simp), fun _ _ => rfl⟩
      rintro ⟨-, h1 | h1⟩
      · omega
      · rw [hvloc'] at h1
        cases h1

/-- C5 witness: a valid one-block local chain against a single valid
candidate of the same length: no adoption, result false, state unchanged. -/
theorem consensus_spec_witness :
    Blockchain.consensus hashZero defaultBlock
      { blocks := [defaultBlock], transactionPool := [] } [[defaultBlock]] =
      ({ blocks := [defaultBlock], transactionPool := [] }, false) :=
  (consensus_spec hashZero defaultBlock
      { blocks := [defaultBlock], transactionPool := [] } [[defaultBlock]]).2.2.2
    (by decide) (by decide)
